import Mathlib

/-!
Shallow embedding of the environment-configuration merge engine of
`platformio/commands/init.py` (the `init` command): board validation
(`validate_boards`), the merge loop of `fill_project_envs`, and the
dependent-platform install step (`_install_dependent_platforms`).

External collaborators (the board registry behind `PlatformManager`,
the `ConfigParser`-backed project configuration, the installed-platform
listing) are modelled as explicit parameters, per the spec's collaborator
contracts.
-/

set_option autoImplicit false

namespace PioInit

/-- A board registry entry: its owning platform and its ordered list of
supported frameworks.  An absent/empty `frameworks` entry of the registry
dict is modelled as the empty list (both are falsy in the source). -/
structure BoardDescr where
  platform : String
  frameworks : List String
  deriving DecidableEq, Repr

/-- Modelled from the spec: the board/platform registry behind
`PlatformManager` lives outside `src/`; per the Board Resolver contract it
maps identifiers to board descriptors and fails for unknown identifiers. -/
abbrev Registry := List (String × BoardDescr)

/-- Modelled from the spec: `PlatformManager().board_config(id)` resolves a
board identifier in the registry; `none` models the `UnknownBoard` exception,
which names the offending identifier. -/
def board_config (pm : Registry) (id : String) : Option BoardDescr :=
  (pm.find? (fun p => p.1 == id)).map (fun p => p.2)

/-- One section of the project configuration: a name and an ordered
option mapping (option keys unique; insertion-ordered like a dict). -/
structure Sect where
  name : String
  opts : List (String × String)
  deriving DecidableEq, Repr

/-- Modelled from the spec: `util.load_project_config` parses the ini file
into ordered sections of key/value options; serialization preserves order. -/
abbrev Config := List Sect

/-- Look up an option key in an option mapping (`config.get` /
`config.has_option` collapsed into one `Option`). -/
def lookupVal (k : String) (d : List (String × String)) : Option String :=
  (d.find? (fun p => p.1 == k)).map (fun p => p.2)

/-- The `board` option of a section, when defined. -/
def sectionBoard (s : Sect) : Option String := lookupVal "board" s.opts

/-- Python's `s.startswith(p)`. -/
def startswith (s p : String) : Bool := p.toList.isPrefixOf s.toList

/-- The `used_boards` scan of `fill_project_envs` (lines 295-300): the
`board` values of all sections whose name starts with `env:` and which
define a `board` option. -/
def configUsedBoards (c : Config) : List String :=
  c.filterMap (fun s => if startswith s.name "env:" then sectionBoard s else none)

/-- Python dict assignment `d[k] = v`: replace the value in place when the
key is present, append the pair otherwise. -/
def dictInsert (d : List (String × String)) (k v : String) : List (String × String) :=
  if d.any (fun p => p.1 == k) then
    d.map (fun p => if p.1 == k then (k, v) else p)
  else d ++ [(k, v)]

/-- Split a raw override at its FIRST `=` character; `none` when the string
contains no `=` (the `if "=" not in item: continue` test). -/
def splitEq1 : List Char → Option (List Char × List Char)
  | [] => none
  | c :: rest =>
    if c = '=' then some ([], rest)
    else
      match splitEq1 rest with
      | none => none
      | some (k, v) => some (c :: k, v)

/-- Python's `str.strip()` on a character list: drop leading and trailing
whitespace. -/
def stripChars (l : List Char) : List Char :=
  ((l.dropWhile Char.isWhitespace).reverse.dropWhile Char.isWhitespace).reverse

/-- Python's `str.strip()`. -/
def strip (s : String) : String := String.mk (stripChars s.toList)

/-- `item.split("=", 1)` followed by `.strip()` on both halves;
`none` models the `continue` for items without `=`. -/
def splitKV (item : String) : Option (String × String) :=
  match splitEq1 item.toList with
  | none => none
  | some (k, v) => some (strip (String.mk k), strip (String.mk v))

/-- The parsed overrides of a raw override list, in order. -/
def overridesOf (po : List String) : List (String × String) :=
  po.filterMap splitKV

/-- The value the last override with key `k` would assign, if any. -/
def lastOverride (po : List String) (k : String) : Option String :=
  ((overridesOf po).reverse.find? (fun kv => kv.1 == k)).map (fun kv => kv.2)

/-- The default `envopts` dict before overrides (lines 310-314):
`platform`, `board`, and `framework` = first resolved framework when
the framework list is non-empty. -/
def baseOpts (bc : BoardDescr) (id : String) : List (String × String) :=
  match bc.frameworks with
  | [] => [("platform", bc.platform), ("board", id)]
  | f :: _ => [("platform", bc.platform), ("board", id), ("framework", f)]

/-- The full `envopts` of a new section (lines 310-320): defaults first,
then every parsed override applied in order by dict assignment. -/
def mkEnvOpts (bc : BoardDescr) (id : String) (project_option : List String) :
    List (String × String) :=
  project_option.foldl
    (fun envopts item =>
      match splitKV item with
      | none => envopts
      | some kv => dictInsert envopts kv.1 kv.2)
    (baseOpts bc id)

/-- The per-board loop of `fill_project_envs` (lines 303-325), with the
accumulators `content` (as structured sections), `used_boards` and
`used_platforms` made explicit.  `Except.error id` models the propagated
`UnknownBoard` exception for identifier `id`. -/
def envLoop (pm : Registry) (project_option : List String) (env_pre : String) :
    List String → List String → List String → List Sect →
    Except String (List Sect × List String × List String)
  | [], ub, up, content => .ok (content, ub, up)
  | id :: rest, ub, up, content =>
    match board_config pm id with
    | none => .error id
    | some bc =>
      if id ∈ ub then
        envLoop pm project_option env_pre rest ub (up ++ [bc.platform]) content
      else
        envLoop pm project_option env_pre rest (ub ++ [id]) (up ++ [bc.platform])
          (content ++ [⟨"env:" ++ (env_pre ++ id), mkEnvOpts bc id project_option⟩])

/-- An externally visible side effect of one invocation: a call into the
platform installer, or the append-write to `platformio.ini`. -/
inductive Event where
  | install (platforms : List String)
  | write (text : String)
  deriving DecidableEq, Repr

/-- `_install_dependent_platforms` (lines 338-346): no installer call when
every referenced platform is installed, otherwise one call with the missing
set.  `installed` models `PlatformManager().get_installed()`. -/
def install_dependent_platforms (installed : List String) (platforms : List String) :
    List Event :=
  if platforms.all (fun p => installed.contains p) then []
  else [Event.install ((platforms.filter (fun p => !installed.contains p)).dedup)]

/-- The exact lines appended for one new section (lines 322-325): a blank
line, the bracketed header, then one `key = value` line per option. -/
def serializeSection (s : Sect) : List String :=
  "" :: ("[" ++ s.name ++ "]") :: s.opts.map (fun p => p.1 ++ " = " ++ p.2)

/-- The text `fill_project_envs` appends to `platformio.ini`
(lines 333-335): all new-section lines plus a final empty line, joined
with newlines. -/
def serializeContent (secs : List Sect) : String :=
  String.intercalate "\n" ((secs.map serializeSection).flatten ++ [""])

/-- The outcome of one `fill_project_envs` invocation:
the in-memory view of the resulting config (existing sections plus the
appended new ones), the accumulated `used_platforms`, the ordered side
effects, and the text appended to the file (`none` = no write). -/
structure FillResult where
  newConfig : Config
  platforms : List String
  events : List Event
  fileAppend : Option String
  deriving DecidableEq, Repr

/-- `fill_project_envs` (lines 288-335).  The project directory is
abstracted into its loaded `config`; `Except.error id` models the
propagated unknown-board exception, which aborts before any side effect. -/
def fill_project_envs (pm : Registry) (installed : List String) (config : Config)
    (board_ids : List String) (project_option : List String) (env_pre : String)
    (force_download : Bool) : Except String FillResult :=
  match envLoop pm project_option env_pre board_ids (configUsedBoards config) [] [] with
  | .error id => .error id
  | .ok (content, _, used_platforms) =>
    let installEvents :=
      if force_download && !used_platforms.isEmpty then
        install_dependent_platforms installed used_platforms
      else []
    if content.isEmpty then
      .ok ⟨config, used_platforms, installEvents, none⟩
    else
      let text := serializeContent content
      .ok ⟨config ++ content, used_platforms, installEvents ++ [Event.write text], some text⟩

/-- The `click.BadParameter` message raised by `validate_boards`
(lines 36-38). -/
def badParamMsg (id : String) : String :=
  "`" ++ id ++ "`. Please search for board ID using `platformio boards` command"

/-- `validate_boards` (lines 30-39): resolve every identifier, raising
`BadParameter` naming the first unknown one. -/
def validate_boards (pm : Registry) (value : List String) :
    Except String (List String) :=
  match value.find? (fun id => (board_config pm id).isNone) with
  | some id => .error (badParamMsg id)
  | none => .ok value

/-- The platforms resolved for a list of requested identifiers, in request
order, duplicates kept. -/
def platformsOf (pm : Registry) (ids : List String) : List String :=
  ids.filterMap (fun i => (board_config pm i).map (fun bc => bc.platform))

/-- No raw override parses to an assignment of the `board` key. -/
def NoBoardOverride (po : List String) : Prop :=
  ∀ item ∈ po, ∀ kv : String × String, splitKV item = some kv → kv.1 ≠ "board"

/-- The installer events of one invocation (lines 327-328): present only
when eager download is requested and some platform was referenced. -/
def fillInstallEvents (installed up : List String) (fd : Bool) : List Event :=
  if fd && !up.isEmpty then install_dependent_platforms installed up else []

/-- Event classifier: is this an installer invocation? -/
def isInstall : Event → Bool
  | .install _ => true
  | .write _ => false

/-- Event classifier: is this a configuration-file write? -/
def isWrite : Event → Bool
  | .install _ => false
  | .write _ => true

/-- The ordering property C4 asserts: every installer invocation in the
trace is preceded by a configuration-file write. -/
def installPrecededByWrite (evts : List Event) : Prop :=
  ∀ n : Nat, ∀ e : Event, evts[n]? = some e → isInstall e = true →
    ∃ m, m < n ∧ ∃ fe : Event, evts[m]? = some fe ∧ isWrite fe = true

/-- A small concrete registry used in concrete runs. -/
def R0 : Registry := [("uno", ⟨"atmelavr", ["arduino"]⟩)]

example : board_config R0 "uno" = some ⟨"atmelavr", ["arduino"]⟩ := rfl
example : board_config R0 "nope" = none := rfl
example :
    fill_project_envs R0 [] [] ["uno"] [] "" false =
      .ok ⟨[⟨"env:uno",
              [("platform", "atmelavr"), ("board", "uno"), ("framework", "arduino")]⟩],
            ["atmelavr"], [Event.write "\n[env:uno]\nplatform = atmelavr\nboard = uno\nframework = arduino\n"],
            some "\n[env:uno]\nplatform = atmelavr\nboard = uno\nframework = arduino\n"⟩ := by
  rfl

/-! ### Helper lemmas about the option-dict operations -/

theorem lookupVal_cons (p : String × String) (d : List (String × String)) (k : String) :
    lookupVal k (p :: d) = if p.1 == k then some p.2 else lookupVal k d := by
  simp only [lookupVal, List.find?_cons]
  cases hpk : (p.1 == k) <;> simp [hpk]

theorem lookupVal_map_subst_ne (k v k' : String) (h : k' ≠ k) :
    ∀ d : List (String × String),
      lookupVal k' (d.map (fun p => if p.1 == k then (k, v) else p)) = lookupVal k' d := by
  intro d
  induction d with
  | nil => rfl
  | cons p rest ih =>
    simp only [List.map_cons]
    rw [lookupVal_cons, lookupVal_cons]
    by_cases hp : p.1 = k
    · have hb : (p.1 == k) = true := beq_iff_eq.mpr hp
      have h1 : ((k, v).1 == k') = false := by
        simp only [beq_eq_false_iff_ne]
        exact fun hk => h hk.symm
      have h2 : (p.1 == k') = false := by
        simp only [beq_eq_false_iff_ne]
        rw [hp]
        exact fun hk => h hk.symm
      rw [hb]
      simp only [if_true]
      rw [h1, h2]
      simpa using ih
    · have hb : (p.1 == k) = false := beq_eq_false_iff_ne.mpr hp
      rw [hb]
      simp only [Bool.false_eq_true, if_false]
      cases hpk' : (p.1 == k') with
      | true => simp [hpk']
      | false =>
        simp only [hpk', Bool.false_eq_true, if_false]
        simpa using ih

theorem lookupVal_map_subst_self (k v : String) :
    ∀ d : List (String × String), (d.any fun p => p.1 == k) = true →
      lookupVal k (d.map (fun p => if p.1 == k then (k, v) else p)) = some v := by
  intro d
  induction d with
  | nil => intro hany; simp at hany
  | cons p rest ih =>
    intro hany
    simp only [List.map_cons]
    rw [lookupVal_cons]
    by_cases hp : p.1 = k
    · have hb : (p.1 == k) = true := beq_iff_eq.mpr hp
      rw [hb]
      simp
    · have hb : (p.1 == k) = false := beq_eq_false_iff_ne.mpr hp
      have hany' : (rest.any fun p => p.1 == k) = true := by
        simp only [List.any_cons, hb, Bool.false_or] at hany
        exact hany
      rw [hb]
      simp only [Bool.false_eq_true, if_false]
      rw [hb]
      simp only [Bool.false_eq_true, if_false]
      exact ih hany'

theorem lookupVal_dictInsert_ne (d : List (String × String)) (k v k' : String)
    (h : k' ≠ k) : lookupVal k' (dictInsert d k v) = lookupVal k' d := by
  unfold dictInsert
  split
  · exact lookupVal_map_subst_ne k v k' h d
  · rw [lookupVal, List.find?_append]
    have h1 : List.find? (fun p => p.1 == k') [(k, v)] = none := by
      simp only [List.find?_cons]
      have : ((k, v).1 == k') = false := by
        simp only [beq_eq_false_iff_ne]
        exact fun hk => h hk.symm
      rw [this]
      rfl
    rw [h1]
    cases hf : List.find? (fun p => p.1 == k') d <;> simp [lookupVal, hf]

theorem lookupVal_dictInsert_self (d : List (String × String)) (k v : String) :
    lookupVal k (dictInsert d k v) = some v := by
  unfold dictInsert
  split
  · rename_i hany
    exact lookupVal_map_subst_self k v d hany
  · rename_i hany
    rw [lookupVal, List.find?_append]
    have h0 : List.find? (fun p => p.1 == k) d = none := by
      rw [List.find?_eq_none]
      intro x hx hpx
      have hfalse : (d.any fun p => p.1 == k) = true := List.any_eq_true.mpr ⟨x, hx, hpx⟩
      exact absurd hfalse (by simpa using hany)
    rw [h0]
    simp [List.find?_cons]

theorem isSome_lookupVal_dictInsert (d : List (String × String)) (k v k' : String)
    (h : (lookupVal k' d).isSome) : (lookupVal k' (dictInsert d k v)).isSome := by
  by_cases hk : k' = k
  · subst hk
    rw [lookupVal_dictInsert_self]
    rfl
  · rw [lookupVal_dictInsert_ne d k v k' hk]
    exact h

/-! ### Helper lemmas about override parsing and `mkEnvOpts` -/

theorem splitEq1_append (a b : List Char) (h : '=' ∉ a) :
    splitEq1 (a ++ '=' :: b) = some (a, b) := by
  induction a with
  | nil => simp [splitEq1]
  | cons c rest ih =>
    have hc : c ≠ '=' := fun hc => h (hc ▸ List.mem_cons_self _ _)
    have h' : '=' ∉ rest := fun hm => h (List.mem_cons_of_mem _ hm)
    simp [splitEq1, hc, ih h']

theorem splitKV_first_eq (a b : List Char) (h : '=' ∉ a) :
    splitKV (String.mk (a ++ '=' :: b)) = some (strip (String.mk a), strip (String.mk b)) := by
  have htl : (String.mk (a ++ '=' :: b)).toList = a ++ '=' :: b := rfl
  rw [splitKV, htl, splitEq1_append a b h]

theorem mkEnvOpts_eq_foldl (bc : BoardDescr) (id : String) (po : List String) :
    mkEnvOpts bc id po =
      (overridesOf po).foldl (fun d kv => dictInsert d kv.1 kv.2) (baseOpts bc id) := by
  rw [mkEnvOpts]
  generalize baseOpts bc id = d
  induction po generalizing d with
  | nil => rfl
  | cons item rest ih =>
    cases hsp : splitKV item <;>
      simp [overridesOf, List.filterMap_cons, hsp, List.foldl_cons, ih]

theorem lookupVal_foldl_dictInsert (k : String) (l : List (String × String)) :
    ∀ d : List (String × String),
      lookupVal k (l.foldl (fun d kv => dictInsert d kv.1 kv.2) d) =
        match l.reverse.find? (fun kv => kv.1 == k) with
        | some kv => some kv.2
        | none => lookupVal k d := by
  induction l with
  | nil => intro d; rfl
  | cons kv rest ih =>
    intro d
    rw [List.foldl_cons, ih]
    have hrev : (kv :: rest).reverse = rest.reverse ++ [kv] := by simp
    rw [hrev, List.find?_append]
    cases hr : rest.reverse.find? (fun kv => kv.1 == k) with
    | some kv' => simp
    | none =>
      simp only [Option.none_or]
      by_cases hk : kv.1 = k
      · have hb : (kv.1 == k) = true := beq_iff_eq.mpr hk
        simp only [List.find?_cons, hb]
        rw [← hk, lookupVal_dictInsert_self]
      · have hb : (kv.1 == k) = false := beq_eq_false_iff_ne.mpr hk
        simp only [List.find?_cons, hb]
        rw [lookupVal_dictInsert_ne d kv.1 kv.2 k (fun hh => hk hh.symm)]
        rfl

theorem lookupVal_platform_baseOpts (bc : BoardDescr) (id : String) :
    lookupVal "platform" (baseOpts bc id) = some bc.platform := by
  obtain ⟨pl, fws⟩ := bc
  cases fws <;> rfl

theorem lookupVal_board_baseOpts (bc : BoardDescr) (id : String) :
    lookupVal "board" (baseOpts bc id) = some id := by
  obtain ⟨pl, fws⟩ := bc
  cases fws <;> rfl

theorem lookupVal_framework_baseOpts (bc : BoardDescr) (id : String) :
    lookupVal "framework" (baseOpts bc id) = bc.frameworks.head? := by
  obtain ⟨pl, fws⟩ := bc
  cases fws <;> rfl

theorem lookupVal_mkEnvOpts_of_last (bc : BoardDescr) (id : String) (po : List String)
    (k v : String) (h : lastOverride po k = some v) :
    lookupVal k (mkEnvOpts bc id po) = some v := by
  rw [mkEnvOpts_eq_foldl, lookupVal_foldl_dictInsert]
  unfold lastOverride at h
  cases hf : (overridesOf po).reverse.find? (fun kv => kv.1 == k) with
  | none => rw [hf] at h; simp at h
  | some kv => rw [hf] at h; simp at h; simp [h]

theorem lookupVal_board_mkEnvOpts (bc : BoardDescr) (id : String) (po : List String)
    (nb : NoBoardOverride po) : lookupVal "board" (mkEnvOpts bc id po) = some id := by
  rw [mkEnvOpts_eq_foldl, lookupVal_foldl_dictInsert]
  cases hf : (overridesOf po).reverse.find? (fun kv => kv.1 == "board") with
  | none => exact lookupVal_board_baseOpts bc id
  | some kv =>
    exfalso
    have hmem : kv ∈ (overridesOf po).reverse := List.mem_of_find?_eq_some hf
    rw [List.mem_reverse] at hmem
    obtain ⟨item, hitem, hsp⟩ := List.mem_filterMap.mp hmem
    have hkv := List.find?_some hf
    have hk : kv.1 = "board" := beq_iff_eq.mp hkv
    exact nb item hitem kv hsp hk

theorem isSome_lookupVal_mkEnvOpts (bc : BoardDescr) (id : String) (po : List String)
    (k : String) (h : (lookupVal k (baseOpts bc id)).isSome) :
    (lookupVal k (mkEnvOpts bc id po)).isSome := by
  rw [mkEnvOpts]
  suffices hgen : ∀ (l : List String) (d : List (String × String)),
      (lookupVal k d).isSome = true →
      (lookupVal k (l.foldl
        (fun envopts item =>
          match splitKV item with
          | none => envopts
          | some kv => dictInsert envopts kv.1 kv.2) d)).isSome = true by
    exact hgen po (baseOpts bc id) h
  intro l
  induction l with
  | nil => exact fun d hd => hd
  | cons item rest ih =>
    intro d hd
    rw [List.foldl_cons]
    cases hsp : splitKV item with
    | none => simp only [hsp]; exact ih d hd
    | some kv =>
      simp only [hsp]
      exact ih _ (isSome_lookupVal_dictInsert d kv.1 kv.2 k hd)

/-! ### Helper lemmas about the used-boards scan and the merge loop -/

theorem isPrefixOf_append_self (l₁ l₂ : List Char) : (l₁.isPrefixOf (l₁ ++ l₂)) = true := by
  induction l₁ with
  | nil => simp [List.isPrefixOf]
  | cons c rest ih => simp [List.isPrefixOf, ih]

theorem startswith_append (p r : String) : startswith (p ++ r) p = true := by
  have h : (p ++ r).toList = p.toList ++ r.toList := rfl
  rw [startswith, h]
  exact isPrefixOf_append_self _ _

theorem configUsedBoards_append (c d : Config) :
    configUsedBoards (c ++ d) = configUsedBoards c ++ configUsedBoards d := by
  simp [configUsedBoards, List.filterMap_append]

theorem configUsedBoards_newSecs (pre : String) (po : List String)
    (nb : NoBoardOverride po) :
    ∀ Δ : List (String × BoardDescr),
      configUsedBoards
        (Δ.map (fun p => Sect.mk ("env:" ++ (pre ++ p.1)) (mkEnvOpts p.2 p.1 po))) =
        Δ.map Prod.fst := by
  intro Δ
  induction Δ with
  | nil => rfl
  | cons p rest ih =>
    simp only [List.map_cons, configUsedBoards, List.filterMap_cons]
    have h1 : startswith ("env:" ++ (pre ++ p.1)) "env:" = true := startswith_append _ _
    have h2 : sectionBoard ⟨"env:" ++ (pre ++ p.1), mkEnvOpts p.2 p.1 po⟩ = some p.1 :=
      lookupVal_board_mkEnvOpts p.2 p.1 po nb
    rw [h1]
    simp only [if_true, h2]
    rw [← ih]
    rfl

/-- Master invariant of the merge loop: resolution succeeded for every
requested identifier; `used_platforms` grows by exactly the resolved
platforms in request order; every requested identifier ends up in
`used_boards`; `used_boards` only grows, stays duplicate-free, and the new
`content` is exactly one well-formed section per newly used board. -/
theorem envLoop_ok_spec (pm : Registry) (po : List String) (pre : String) :
    ∀ (ids ub up : List String) (content : List Sect)
      (content' : List Sect) (ub' up' : List String),
      envLoop pm po pre ids ub up content = .ok (content', ub', up') →
      (∀ id ∈ ids, (board_config pm id).isSome) ∧
      up' = up ++ platformsOf pm ids ∧
      (∀ id ∈ ids, id ∈ ub') ∧
      (∀ x ∈ ub, x ∈ ub') ∧
      (ub.Nodup → ub'.Nodup) ∧
      ∃ Δ : List (String × BoardDescr),
        content' = content ++
          Δ.map (fun p => Sect.mk ("env:" ++ (pre ++ p.1)) (mkEnvOpts p.2 p.1 po)) ∧
        ub' = ub ++ Δ.map Prod.fst ∧
        ∀ p ∈ Δ, board_config pm p.1 = some p.2 := by
  intro ids
  induction ids with
  | nil =>
    intro ub up content content' ub' up' h
    simp only [envLoop, Except.ok.injEq, Prod.mk.injEq] at h
    obtain ⟨h1, h2, h3⟩ := h
    subst h1; subst h2; subst h3
    refine ⟨by simp, by simp [platformsOf], by simp, fun x hx => hx, fun h => h,
      [], by simp, by simp, by simp⟩
  | cons id rest ih =>
    intro ub up content content' ub' up' h
    cases hbc : board_config pm id with
    | none => rw [envLoop, hbc] at h; exact absurd h (by simp)
    | some bc =>
      simp only [envLoop, hbc] at h
      have hplat : platformsOf pm (id :: rest) = bc.platform :: platformsOf pm rest := by
        simp [platformsOf, List.filterMap_cons, hbc]
      by_cases hmem : id ∈ ub
      · rw [if_pos hmem] at h
        obtain ⟨c1, c2, c3, c4, c5, Δ, hΔ1, hΔ2, hΔ3⟩ :=
          ih ub (up ++ [bc.platform]) content content' ub' up' h
        refine ⟨?_, ?_, ?_, c4, c5, Δ, hΔ1, hΔ2, hΔ3⟩
        · intro i hi
          rcases List.mem_cons.mp hi with hi | hi
          · subst hi; simp [hbc]
          · exact c1 i hi
        · rw [c2, hplat, List.append_assoc]
          rfl
        · intro i hi
          rcases List.mem_cons.mp hi with hi | hi
          · subst hi; exact c4 i hmem
          · exact c3 i hi
      · rw [if_neg hmem] at h
        obtain ⟨c1, c2, c3, c4, c5, Δ, hΔ1, hΔ2, hΔ3⟩ :=
          ih (ub ++ [id]) (up ++ [bc.platform])
            (content ++ [⟨"env:" ++ (pre ++ id), mkEnvOpts bc id po⟩])
            content' ub' up' h
        have hsub : ∀ x ∈ ub, x ∈ ub' := fun x hx =>
          c4 x (List.mem_append_left _ hx)
        refine ⟨?_, ?_, ?_, hsub, ?_, (id, bc) :: Δ, ?_, ?_, ?_⟩
        · intro i hi
          rcases List.mem_cons.mp hi with hi | hi
          · subst hi; simp [hbc]
          · exact c1 i hi
        · rw [c2, hplat, List.append_assoc]
          rfl
        · intro i hi
          rcases List.mem_cons.mp hi with hi | hi
          · subst hi; exact c4 i (by simp)
          · exact c3 i hi
        · intro hnd
          refine c5 ?_
          rw [List.nodup_append]
          refine ⟨hnd, List.nodup_singleton _, ?_⟩
          intro x hx hx1
          rw [List.mem_singleton] at hx1
          subst hx1
          exact hmem hx
        · rw [hΔ1]
          simp [List.append_assoc]
        · rw [hΔ2]
          simp [List.append_assoc]
        · intro p hp
          rcases List.mem_cons.mp hp with hp | hp
          · subst hp; exact hbc
          · exact hΔ3 p hp

/-- When every requested identifier resolves and is already used, the loop
adds nothing: it returns the accumulators unchanged except that
`used_platforms` still collects every resolved platform. -/
theorem envLoop_all_skip (pm : Registry) (po : List String) (pre : String) :
    ∀ (ids ub up : List String) (content : List Sect),
      (∀ id ∈ ids, (board_config pm id).isSome ∧ id ∈ ub) →
      envLoop pm po pre ids ub up content =
        .ok (content, ub, up ++ platformsOf pm ids) := by
  intro ids
  induction ids with
  | nil =>
    intro ub up content _
    simp [envLoop, platformsOf]
  | cons id rest ih =>
    intro ub up content h
    obtain ⟨hs, hmem⟩ := h id (List.mem_cons_self _ _)
    obtain ⟨bc, hbc⟩ := Option.isSome_iff_exists.mp hs
    simp only [envLoop, hbc]
    rw [if_pos hmem,
      ih ub (up ++ [bc.platform]) content (fun i hi => h i (List.mem_cons_of_mem _ hi))]
    have hplat : platformsOf pm (id :: rest) = bc.platform :: platformsOf pm rest := by
      simp [platformsOf, List.filterMap_cons, hbc]
    rw [hplat, List.append_assoc]
    rfl

/-- The loop aborts with exactly the first unresolvable identifier. -/
theorem envLoop_error_of_first_unknown (pm : Registry) (po : List String) (pre : String) :
    ∀ (ids : List String) (id : String),
      ids.find? (fun i => (board_config pm i).isNone) = some id →
      ∀ (ub up : List String) (content : List Sect),
        envLoop pm po pre ids ub up content = .error id := by
  intro ids
  induction ids with
  | nil => intro id h; simp at h
  | cons i rest ih =>
    intro id h ub up content
    cases hbc : board_config pm i with
    | none =>
      have hpred : ((board_config pm i).isNone : Bool) = true := by rw [hbc]; rfl
      rw [List.find?_cons] at h
      rw [hpred] at h
      simp only [Option.some.injEq] at h
      subst h
      rw [envLoop, hbc]
    | some bc =>
      have hpred : ((board_config pm i).isNone : Bool) = false := by rw [hbc]; rfl
      rw [List.find?_cons] at h
      rw [hpred] at h
      simp only [envLoop, hbc]
      by_cases hmem : i ∈ ub
      · rw [if_pos hmem]
        exact ih id h _ _ _
      · rw [if_neg hmem]
        exact ih id h _ _ _

/-- Case analysis of a successful `fill_project_envs` run in terms of the
merge loop's result. -/
theorem fill_ok_cases (pm : Registry) (installed : List String) (config : Config)
    (ids po : List String) (pre : String) (fd : Bool) (r : FillResult)
    (h : fill_project_envs pm installed config ids po pre fd = .ok r) :
    ∃ (content : List Sect) (ub' up' : List String),
      envLoop pm po pre ids (configUsedBoards config) [] [] = .ok (content, ub', up') ∧
      ((content.isEmpty = true ∧
          r = ⟨config, up', fillInstallEvents installed up' fd, none⟩) ∨
       (content.isEmpty = false ∧
          r = ⟨config ++ content, up',
            fillInstallEvents installed up' fd ++ [Event.write (serializeContent content)],
            some (serializeContent content)⟩)) := by
  rw [fill_project_envs] at h
  cases hE : envLoop pm po pre ids (configUsedBoards config) [] [] with
  | error e => rw [hE] at h; exact absurd h (by simp)
  | ok t =>
    obtain ⟨content, ub', up'⟩ := t
    rw [hE] at h
    refine ⟨content, ub', up', rfl, ?_⟩
    have h' : (if content.isEmpty
        then (Except.ok (⟨config, up', fillInstallEvents installed up' fd, none⟩ : FillResult) :
          Except String FillResult)
        else Except.ok (⟨config ++ content, up',
          fillInstallEvents installed up' fd ++ [Event.write (serializeContent content)],
          some (serializeContent content)⟩ : FillResult)) = Except.ok r := h
    by_cases hc : content.isEmpty
    · rw [if_pos hc] at h'
      left
      refine ⟨hc, ?_⟩
      injection h' with h''
      exact h''.symm
    · rw [if_neg hc] at h'
      right
      refine ⟨by simpa using hc, ?_⟩
      injection h' with h''
      exact h''.symm

example : splitKV "framework=arduino" = some ("framework", "arduino") := rfl

example : splitKV " key = value = x " = some ("key", "value = x") := rfl

example : lastOverride ["framework=a", "framework=b"] "framework" = some "b" := rfl

/-! ### Claim theorems -/

/-- C2: if any requested identifier is unknown to the registry, the merge
aborts with an unknown-board error naming an unknown identifier from the
batch (and the CLI-level `validate_boards` guard raises `BadParameter`
naming the same identifier); an `Except.error` result carries no
`FillResult`, so no write event and no file append occur — no partial
environments are persisted, however many other identifiers are valid. -/
theorem merge_all_or_nothing (pm : Registry) (installed : List String) (config : Config)
    (ids po : List String) (pre : String) (fd : Bool)
    (h : ∃ id ∈ ids, board_config pm id = none) :
    ∃ id ∈ ids, board_config pm id = none ∧
      fill_project_envs pm installed config ids po pre fd = .error id ∧
      validate_boards pm ids = .error (badParamMsg id) := by
  have hsome : (ids.find? (fun i => (board_config pm i).isNone)).isSome := by
    rw [List.find?_isSome]
    obtain ⟨id, hid, hnone⟩ := h
    exact ⟨id, hid, by rw [hnone]; rfl⟩
  obtain ⟨id0, hf⟩ := Option.isSome_iff_exists.mp hsome
  have hmem : id0 ∈ ids := List.mem_of_find?_eq_some hf
  have hnone : board_config pm id0 = none := by
    have hp := List.find?_some hf
    exact Option.isNone_iff_eq_none.mp (by simpa using hp)
  refine ⟨id0, hmem, hnone, ?_, ?_⟩
  · rw [fill_project_envs, envLoop_error_of_first_unknown pm po pre ids id0 hf]
  · rw [validate_boards, hf]

/-- Witness for C2: with registry `R0`, the batch `["uno", "nope"]` has a
valid and an unknown identifier; the merge errors with `"nope"` and writes
nothing. -/
theorem merge_all_or_nothing_witness :
    (∃ id ∈ ["uno", "nope"], board_config R0 id = none) ∧
    ∃ id ∈ ["uno", "nope"], board_config R0 id = none ∧
      fill_project_envs R0 [] [] ["uno", "nope"] [] "" false = .error id ∧
      validate_boards R0 ["uno", "nope"] = .error (badParamMsg id) :=
  ⟨⟨"nope", by decide, rfl⟩,
   merge_all_or_nothing R0 [] [] ["uno", "nope"] [] "" false ⟨"nope", by decide, rfl⟩⟩

/-- C6: every requested identifier's resolved platform is collected into
the platform set handed to the installer, even when the board is already
configured and no new section is created for it. -/
theorem platform_accumulated_for_all_requested (pm : Registry) (installed : List String)
    (config : Config) (ids po : List String) (pre : String) (fd : Bool) (r : FillResult)
    (h : fill_project_envs pm installed config ids po pre fd = .ok r) :
    ∀ id ∈ ids, ∀ bc : BoardDescr, board_config pm id = some bc →
      bc.platform ∈ r.platforms := by
  obtain ⟨content, ub', up', hE, hcase⟩ :=
    fill_ok_cases pm installed config ids po pre fd r h
  have hup : r.platforms = up' := by
    rcases hcase with ⟨_, rfl⟩ | ⟨_, rfl⟩ <;> rfl
  obtain ⟨c1, c2, c3, c4, c5, _⟩ :=
    envLoop_ok_spec pm po pre ids (configUsedBoards config) [] [] content ub' up' hE
  intro id hid bc hbc
  rw [hup, c2]
  refine List.mem_append_right _ ?_
  exact List.mem_filterMap.mpr ⟨id, hid, by rw [hbc]; rfl⟩

/-- Witness for C6: a config already containing `env:myenv` with
`board = uno` still yields `"atmelavr"` in the platform set when `uno` is
requested again. -/
theorem platform_accumulated_witness :
    ∃ r, fill_project_envs R0 [] [⟨"env:myenv", [("board", "uno")]⟩] ["uno"] [] "" false
        = .ok r ∧
      "atmelavr" ∈ r.platforms :=
  ⟨_, rfl,
   platform_accumulated_for_all_requested R0 [] [⟨"env:myenv", [("board", "uno")]⟩]
     ["uno"] [] "" false _ rfl "uno" (by decide) ⟨"atmelavr", ["arduino"]⟩ rfl⟩

/-- C7: a new section's options start from the defaults
(`platform` = resolved platform, `board` = identifier, `framework` = first
resolved framework when the list is non-empty) and every parsed override is
applied afterwards, so the last override for a key wins over its default. -/
theorem override_precedence_over_defaults (bc : BoardDescr) (id : String) (po : List String) :
    lookupVal "platform" (baseOpts bc id) = some bc.platform ∧
    lookupVal "board" (baseOpts bc id) = some id ∧
    lookupVal "framework" (baseOpts bc id) = bc.frameworks.head? ∧
    mkEnvOpts bc id po =
      (overridesOf po).foldl (fun d kv => dictInsert d kv.1 kv.2) (baseOpts bc id) ∧
    ∀ k v : String, lastOverride po k = some v →
      lookupVal k (mkEnvOpts bc id po) = some v :=
  ⟨lookupVal_platform_baseOpts bc id, lookupVal_board_baseOpts bc id,
   lookupVal_framework_baseOpts bc id, mkEnvOpts_eq_foldl bc id po,
   fun k v h => lookupVal_mkEnvOpts_of_last bc id po k v h⟩

/-- Witness for C7: override `framework=arduino` on a board whose registry
default framework is `espidf` yields `framework = arduino`. -/
theorem override_precedence_witness :
    lastOverride ["framework=arduino"] "framework" = some "arduino" ∧
    lookupVal "framework"
      (mkEnvOpts ⟨"espressif32", ["espidf"]⟩ "esp32dev" ["framework=arduino"]) =
      some "arduino" :=
  ⟨rfl,
   (override_precedence_over_defaults ⟨"espressif32", ["espidf"]⟩ "esp32dev"
     ["framework=arduino"]).2.2.2.2 "framework" "arduino" rfl⟩

/-- C8: an override without `=` is silently ignored (the section options
are as if it were absent), key and value of a well-formed override are the
whitespace-trimmed halves around the first `=`, and the last override for
a key determines the value stored in every new section. -/
theorem override_parsing_rules (bc : BoardDescr) (id : String) :
    (∀ (item : String) (a b : List String), splitKV item = none →
      mkEnvOpts bc id (a ++ item :: b) = mkEnvOpts bc id (a ++ b)) ∧
    (∀ a b : List Char, '=' ∉ a →
      splitKV (String.mk (a ++ '=' :: b)) = some (strip (String.mk a), strip (String.mk b))) ∧
    (∀ (po : List String) (k v : String), lastOverride po k = some v →
      lookupVal k (mkEnvOpts bc id po) = some v) := by
  refine ⟨?_, fun a b h => splitKV_first_eq a b h,
    fun po k v h => lookupVal_mkEnvOpts_of_last bc id po k v h⟩
  intro item a b hnone
  rw [mkEnvOpts, mkEnvOpts, List.foldl_append, List.foldl_append, List.foldl_cons]
  simp only [hnone]

/-- Witness for C8: a malformed override is dropped, trimming happens, and
the later duplicate key wins. -/
theorem override_parsing_witness :
    splitKV "noequalsign" = none ∧
    mkEnvOpts ⟨"atmelavr", ["arduino"]⟩ "uno" ([] ++ "noequalsign" :: []) =
      mkEnvOpts ⟨"atmelavr", ["arduino"]⟩ "uno" ([] ++ []) ∧
    splitKV " key = value = x " = some ("key", "value = x") ∧
    lastOverride ["framework=a", "framework=b"] "framework" = some "b" ∧
    lookupVal "framework"
      (mkEnvOpts ⟨"atmelavr", ["arduino"]⟩ "uno" ["framework=a", "framework=b"]) =
      some "b" :=
  ⟨rfl,
   (override_parsing_rules ⟨"atmelavr", ["arduino"]⟩ "uno").1 "noequalsign" [] [] rfl,
   rfl, rfl,
   (override_parsing_rules ⟨"atmelavr", ["arduino"]⟩ "uno").2.2
     ["framework=a", "framework=b"] "framework" "b" rfl⟩

/-- C9: an override is split only at its first `=`: the key is the trimmed
text before the first `=` and the value is the trimmed entire remainder,
later `=` characters included. -/
theorem override_split_at_first_eq (a b : List Char) (h : '=' ∉ a) :
    splitKV (String.mk (a ++ '=' :: b)) = some (strip (String.mk a), strip (String.mk b)) :=
  splitKV_first_eq a b h

/-- Witness for C9: `build_flags=-DF_CPU=16000000` keeps the full value
after the first `=`. -/
theorem override_split_witness :
    ('=' ∉ "build_flags".toList) ∧
    splitKV (String.mk ("build_flags".toList ++ '=' :: "-DF_CPU=16000000".toList)) =
      some (strip (String.mk "build_flags".toList),
            strip (String.mk "-DF_CPU=16000000".toList)) ∧
    splitKV "build_flags=-DF_CPU=16000000" = some ("build_flags", "-DF_CPU=16000000") :=
  ⟨by decide,
   override_split_at_first_eq "build_flags".toList "-DF_CPU=16000000".toList (by decide),
   rfl⟩

/-- C10: every section a merge creates defines both a `platform` and a
`board` option key — overrides can replace their values but cannot remove
the keys.  Sections of the resulting config are either pre-existing or
carry both keys. -/
theorem new_sections_define_platform_and_board (pm : Registry) (installed : List String)
    (config : Config) (ids po : List String) (pre : String) (fd : Bool) (r : FillResult)
    (h : fill_project_envs pm installed config ids po pre fd = .ok r) :
    ∀ s ∈ r.newConfig, s ∈ config ∨
      ((lookupVal "platform" s.opts).isSome ∧ (lookupVal "board" s.opts).isSome) := by
  obtain ⟨content, ub', up', hE, hcase⟩ :=
    fill_ok_cases pm installed config ids po pre fd r h
  obtain ⟨c1, c2, c3, c4, c5, Δ, hΔ1, hΔ2, hΔ3⟩ :=
    envLoop_ok_spec pm po pre ids (configUsedBoards config) [] [] content ub' up' hE
  have hcontent : ∀ s ∈ content,
      (lookupVal "platform" s.opts).isSome ∧ (lookupVal "board" s.opts).isSome := by
    intro s hs
    rw [hΔ1] at hs
    rw [List.nil_append] at hs
    obtain ⟨p, _, hps⟩ := List.mem_map.mp hs
    subst hps
    constructor
    · exact isSome_lookupVal_mkEnvOpts p.2 p.1 po "platform"
        (by rw [lookupVal_platform_baseOpts]; rfl)
    · exact isSome_lookupVal_mkEnvOpts p.2 p.1 po "board"
        (by rw [lookupVal_board_baseOpts]; rfl)
  intro s hs
  rcases hcase with ⟨_, hr⟩ | ⟨_, hr⟩
  · rw [hr] at hs
    exact Or.inl hs
  · rw [hr] at hs
    rcases List.mem_append.mp hs with hs | hs
    · exact Or.inl hs
    · exact Or.inr (hcontent s hs)

/-- Witness for C10: even an override assigning `platform` an empty value
leaves both keys present in the created section. -/
theorem new_sections_witness :
    ∃ r, fill_project_envs R0 [] [] ["uno"] ["platform="] "" false = .ok r ∧
      ∀ s ∈ r.newConfig, s ∈ ([] : Config) ∨
        ((lookupVal "platform" s.opts).isSome ∧ (lookupVal "board" s.opts).isSome) :=
  ⟨_, rfl,
   new_sections_define_platform_and_board R0 [] [] ["uno"] ["platform="] "" false _ rfl⟩

/-- C1 counterexample: with the override `board=other`, the section created
by the first merge carries `board = other`, so a second merge with the same
arguments does not find `uno` among the used boards, creates the section
again and performs a second file write — the claim's universally quantified
idempotence is false. -/
theorem merge_idempotence_counterexample :
    ∃ r₁ r₂ : FillResult,
      fill_project_envs R0 [] [] ["uno"] ["board=other"] "" false = .ok r₁ ∧
      fill_project_envs R0 [] r₁.newConfig ["uno"] ["board=other"] "" false = .ok r₂ ∧
      r₂.fileAppend ≠ none := by
  refine ⟨_, _, rfl, rfl, ?_⟩
  decide

/-- C1 (amended): provided no override assigns the `board` key, merging is
idempotent: a second merge with the same arguments on the config produced by
a first merge succeeds, adds no section, and performs no file write. -/
theorem merge_idempotent_of_no_board_override (pm : Registry) (installed : List String)
    (config : Config) (ids po : List String) (pre : String) (fd : Bool) (r₁ : FillResult)
    (nb : NoBoardOverride po)
    (h₁ : fill_project_envs pm installed config ids po pre fd = .ok r₁) :
    ∃ r₂ : FillResult, fill_project_envs pm installed r₁.newConfig ids po pre fd = .ok r₂ ∧
      r₂.newConfig = r₁.newConfig ∧ r₂.fileAppend = none := by
  obtain ⟨content, ub', up', hE, hcase⟩ :=
    fill_ok_cases pm installed config ids po pre fd r₁ h₁
  obtain ⟨c1, c2, c3, c4, c5, Δ, hΔ1, hΔ2, hΔ3⟩ :=
    envLoop_ok_spec pm po pre ids (configUsedBoards config) [] [] content ub' up' hE
  have hall : ∀ id ∈ ids, (board_config pm id).isSome ∧ id ∈ ub' :=
    fun id hid => ⟨c1 id hid, c3 id hid⟩
  rcases hcase with ⟨hce, hr⟩ | ⟨hcne, hr⟩
  · -- no new sections: the second run is literally the first run again
    have hnc : r₁.newConfig = config := by rw [hr]
    refine ⟨r₁, ?_, rfl, ?_⟩
    · rw [hnc]
      exact h₁
    · rw [hr]
  · -- new sections were appended: every requested board is now used
    have hcontent : content =
        Δ.map (fun p => Sect.mk ("env:" ++ (pre ++ p.1)) (mkEnvOpts p.2 p.1 po)) := by
      simpa using hΔ1
    have hnc : r₁.newConfig = config ++ content := by rw [hr]
    have hcub : configUsedBoards (config ++ content) = ub' := by
      rw [configUsedBoards_append, hcontent, configUsedBoards_newSecs pre po nb Δ, hΔ2]
    refine ⟨⟨config ++ content, platformsOf pm ids,
      fillInstallEvents installed (platformsOf pm ids) fd, none⟩, ?_, ?_, rfl⟩
    · rw [hnc, fill_project_envs, hcub,
        envLoop_all_skip pm po pre ids ub' [] [] hall]
      rfl
    · rw [hnc]

/-- Witness for C1 (amended): an override-free merge of `uno` into an empty
config, merged again, adds nothing and writes nothing. -/
theorem merge_idempotent_witness :
    NoBoardOverride [] ∧
    ∃ r₂ : FillResult,
      fill_project_envs R0 []
        (FillResult.newConfig ⟨[⟨"env:uno",
            [("platform", "atmelavr"), ("board", "uno"), ("framework", "arduino")]⟩],
          ["atmelavr"],
          [Event.write "\n[env:uno]\nplatform = atmelavr\nboard = uno\nframework = arduino\n"],
          some "\n[env:uno]\nplatform = atmelavr\nboard = uno\nframework = arduino\n"⟩)
        ["uno"] [] "" false = .ok r₂ ∧
      r₂.newConfig = FillResult.newConfig ⟨[⟨"env:uno",
            [("platform", "atmelavr"), ("board", "uno"), ("framework", "arduino")]⟩],
          ["atmelavr"],
          [Event.write "\n[env:uno]\nplatform = atmelavr\nboard = uno\nframework = arduino\n"],
          some "\n[env:uno]\nplatform = atmelavr\nboard = uno\nframework = arduino\n"⟩ ∧
      r₂.fileAppend = none :=
  ⟨fun _ h => absurd h (List.not_mem_nil _),
   merge_idempotent_of_no_board_override R0 [] [] ["uno"] [] "" false _
     (fun _ h => absurd h (List.not_mem_nil _)) rfl⟩

/-- C3 counterexample: the override `board=uno` applies to every new
section, so requesting two distinct valid boards creates two environment
sections whose `board` option both equal `uno` — the claim's "at most one
per identifier for all inputs" is false. -/
theorem merge_no_duplicates_counterexample :
    ∃ r : FillResult,
      fill_project_envs [("a", ⟨"p1", []⟩), ("b", ⟨"p2", []⟩)] [] []
        ["a", "b"] ["board=uno"] "" false = .ok r ∧
      1 < (configUsedBoards r.newConfig).count "uno" := by
  refine ⟨_, rfl, ?_⟩
  decide

/-- C3 (amended): provided the starting config has no two environment
sections with the same `board` value and no override assigns the `board`
key, the merged config still has at most one environment section per board
identifier — in particular a board requested twice in one batch yields
exactly one new section. -/
theorem merge_no_duplicates_of_clean_input (pm : Registry) (installed : List String)
    (config : Config) (ids po : List String) (pre : String) (fd : Bool) (r : FillResult)
    (nb : NoBoardOverride po) (hnd : (configUsedBoards config).Nodup)
    (h : fill_project_envs pm installed config ids po pre fd = .ok r) :
    (configUsedBoards r.newConfig).Nodup := by
  obtain ⟨content, ub', up', hE, hcase⟩ :=
    fill_ok_cases pm installed config ids po pre fd r h
  obtain ⟨c1, c2, c3, c4, c5, Δ, hΔ1, hΔ2, hΔ3⟩ :=
    envLoop_ok_spec pm po pre ids (configUsedBoards config) [] [] content ub' up' hE
  have hub : ub'.Nodup := c5 hnd
  have hcontent : content =
      Δ.map (fun p => Sect.mk ("env:" ++ (pre ++ p.1)) (mkEnvOpts p.2 p.1 po)) := by
    simpa using hΔ1
  rcases hcase with ⟨_, hr⟩ | ⟨_, hr⟩
  · rw [hr]
    exact hnd
  · rw [hr]
    show (configUsedBoards (config ++ content)).Nodup
    rw [configUsedBoards_append, hcontent, configUsedBoards_newSecs pre po nb Δ, ← hΔ2]
    exact hub

/-- Witness for C3 (amended): `uno` requested twice in one batch against an
empty config yields a duplicate-free used-board list (exactly one section). -/
theorem merge_no_duplicates_witness :
    NoBoardOverride [] ∧ (configUsedBoards ([] : Config)).Nodup ∧
    ∃ r : FillResult, fill_project_envs R0 [] [] ["uno", "uno"] [] "" false = .ok r ∧
      (configUsedBoards r.newConfig).Nodup :=
  ⟨fun _ h => absurd h (List.not_mem_nil _), List.nodup_nil, _, rfl,
   merge_no_duplicates_of_clean_input R0 [] [] ["uno", "uno"] [] "" false _
     (fun _ h => absurd h (List.not_mem_nil _)) List.nodup_nil rfl⟩

/-- C4 counterexample: with eager download requested, the trace of a
successful merge is the installer invocation FIRST and the configuration
write second, so the installer invocation is not preceded by any write —
the claimed write-before-install ordering is false. -/
theorem install_before_write_counterexample :
    ∃ r : FillResult,
      fill_project_envs R0 [] [] ["uno"] [] "" true = .ok r ∧
      (∃ p, r.events[0]? = some (Event.install p)) ∧
      (∃ t, r.events[1]? = some (Event.write t)) ∧
      ¬ installPrecededByWrite r.events := by
  refine ⟨_, rfl, ⟨["atmelavr"], rfl⟩, ⟨_, rfl⟩, ?_⟩
  intro hcl
  obtain ⟨m, hm, fe, hfe, hw⟩ := hcl 0 (Event.install ["atmelavr"]) rfl rfl
  exact absurd hm (Nat.not_lt_zero m)

/-- C4 (amended): the ordering is the reverse of the claim: in every
successful run the event trace is all installer invocations first, then the
file write — the installer is invoked BEFORE the configuration is
persisted, so an install failure aborts the run before the merged sections
reach the file. -/
theorem install_precedes_write (pm : Registry) (installed : List String)
    (config : Config) (ids po : List String) (pre : String) (fd : Bool) (r : FillResult)
    (h : fill_project_envs pm installed config ids po pre fd = .ok r) :
    ∃ A B : List Event, r.events = A ++ B ∧
      (∀ e ∈ A, isInstall e = true) ∧ (∀ e ∈ B, isWrite e = true) := by
  obtain ⟨content, ub', up', hE, hcase⟩ :=
    fill_ok_cases pm installed config ids po pre fd r h
  have hA : ∀ e ∈ fillInstallEvents installed up' fd, isInstall e = true := by
    intro e he
    unfold fillInstallEvents at he
    split at he
    · unfold install_dependent_platforms at he
      split at he
      · simp at he
      · rw [List.mem_singleton] at he
        subst he
        rfl
    · simp at he
  rcases hcase with ⟨_, hr⟩ | ⟨_, hr⟩
  · exact ⟨fillInstallEvents installed up' fd, [], by rw [hr]; simp, hA, by simp⟩
  · refine ⟨fillInstallEvents installed up' fd,
      [Event.write (serializeContent content)], by rw [hr], hA, ?_⟩
    intro e he
    rw [List.mem_singleton] at he
    subst he
    rfl

/-- Witness for C4 (amended) at a concrete eager-download run. -/
theorem install_precedes_write_witness :
    ∃ r : FillResult, fill_project_envs R0 [] [] ["uno"] [] "" true = .ok r ∧
      ∃ A B : List Event, r.events = A ++ B ∧
        (∀ e ∈ A, isInstall e = true) ∧ (∀ e ∈ B, isWrite e = true) :=
  ⟨_, rfl, install_precedes_write R0 [] [] ["uno"] [] "" true _ rfl⟩

/-- C5 counterexample: when every requested board is already configured the
file is indeed untouched and the config unchanged, but the returned platform
set is NOT empty — it still holds the platforms of all requested boards. -/
theorem empty_result_counterexample :
    ∃ r : FillResult,
      fill_project_envs R0 [] [⟨"env:myenv", [("board", "uno")]⟩] ["uno"] [] "" false
        = .ok r ∧
      r.newConfig = [⟨"env:myenv", [("board", "uno")]⟩] ∧
      r.fileAppend = none ∧
      r.platforms ≠ [] := by
  refine ⟨_, rfl, rfl, rfl, ?_⟩
  decide

/-- C5 (amended): when every requested board resolves and is already
configured, the merge returns the unmodified config and performs no file
write, but the platform set is the full list of the requested boards'
resolved platforms rather than the empty set. -/
theorem empty_result_postcondition (pm : Registry) (installed : List String)
    (config : Config) (ids po : List String) (pre : String) (fd : Bool)
    (h : ∀ id ∈ ids, (board_config pm id).isSome ∧ id ∈ configUsedBoards config) :
    ∃ ev : List Event, fill_project_envs pm installed config ids po pre fd =
      .ok ⟨config, platformsOf pm ids, ev, none⟩ := by
  refine ⟨fillInstallEvents installed (platformsOf pm ids) fd, ?_⟩
  rw [fill_project_envs, envLoop_all_skip pm po pre ids (configUsedBoards config) [] [] h]
  rfl

/-- Witness for C5 (amended): requesting the already-configured `uno`
returns the unchanged config, no write, and platform list `["atmelavr"]`. -/
theorem empty_result_witness :
    (∀ id ∈ ["uno"], (board_config R0 id).isSome ∧
        id ∈ configUsedBoards [⟨"env:myenv", [("board", "uno")]⟩]) ∧
    ∃ ev : List Event,
      fill_project_envs R0 [] [⟨"env:myenv", [("board", "uno")]⟩] ["uno"] [] "" false =
        .ok ⟨[⟨"env:myenv", [("board", "uno")]⟩], ["atmelavr"], ev, none⟩ :=
  ⟨by decide,
   empty_result_postcondition R0 [] [⟨"env:myenv", [("board", "uno")]⟩] ["uno"] [] "" false
     (by decide)⟩

end PioInit
